import Mathlib

/-!
# drumbox: onset detector of `drumbox.c`

A shallow embedding of the per-block callback `process` of `drumbox.c`,
together with `send_note` and `wrap`.

Modelling conventions.

* `sample_t` (a C `float`) is modelled by an arbitrary linearly ordered field
  `K`; rounding is not modelled.  The definitions are generic in `K`, so they
  evaluate over `ℚ`.
* `fftwf_complex` (C99 `float complex`, because `<complex.h>` is included
  before `<fftw3.h>`) is modelled by a pair `(re, im)`.
* The FFTW plan executed by `fftwf_execute` is a parameter `fft` of the
  embedding; `fftwf_execute_dft` below is the transform the plan of `main`
  computes (forward, unnormalised, size `FFT_SIZE`).
* `unsigned int` arithmetic is `Nat` arithmetic reduced modulo `2 ^ 32`.
* The MIDI buffer is the list of events reserved in it, in write order.
* `DEBUG` output to `stderr` is not modelled.
-/

namespace Drumbox

/-- Macro `FFT_SIZE`, defined as 128. -/
def FFT_SIZE : Nat := 128

/-- Macro `LAST_WIDTH`, defined as `FFT_SIZE`. -/
def LAST_WIDTH : Nat := FFT_SIZE

/-- Macro `MIN(x, y)`, defined as `((x) < (y) ? (x) : (y))`. -/
def MIN (x y : Int) : Int := if x < y then x else y

/-- Macro `MAX(x, y)`, defined as `((x) > (y) ? (x) : (y))`. -/
def MAX (x y : Int) : Int := if x > y then x else y

/-- The conversion `(unsigned char) x` of a floating value: the fractional part
is discarded (truncation toward zero).  C leaves the conversion undefined when
the truncated value is outside `0..255`; the model reduces it modulo 256. -/
def toUChar (x : ℚ) : Int := (Int.tdiv x.num x.den) % 256

/-- An event of the MIDI buffer: the `time` given to `jack_midi_event_reserve`
and the data bytes written into the reserved space. -/
structure MidiEvent where
  time : Nat
  data : List Int
deriving DecidableEq, Repr

set_option linter.unusedVariables false in
/-- Function `send_note(midi_out_buffer, ofs, velocity)`: reserves three bytes with
`jack_midi_event_reserve(midi_out_buffer, 0, 3)` and fills them.  The global
`note` is the parameter `note`. -/
def send_note (note : Int) (midi_out_buffer : List MidiEvent) (ofs : Nat) (velocity : ℚ) :
    List MidiEvent :=
  midi_out_buffer ++ [MidiEvent.mk 0 [0x90, note, MIN 127 (toUChar (velocity * 127))]]

/-- Function `unsigned int wrap(unsigned int i, unsigned int width)`: the loop
`while (i < 0)` never runs on an unsigned value, so the result is `i % width`. -/
def wrap (i width : Nat) : Nat := i % width

/-- The globals of `drumbox.c` that `process` reads and writes, with the two
`static` locals `minp` and `maxp`. -/
structure State (K : Type) where
  last : Nat → K
  last_idx : Nat
  delay : Nat
  power : K
  hit : Bool
  fft_in : Nat → K × K
  fft_out : Nat → K × K
  minp : K
  maxp : K

section Generic

variable {K : Type} [LinearOrderedField K]

/-- The values of the globals at program start: zero-initialised storage.  The
arrays `fft_in` and `fft_out` come from `fftwf_malloc` with unspecified content;
they are modelled as zero, and every tick overwrites them before reading them. -/
def State.init : State K :=
  State.mk (fun _ => 0) 0 0 0 false (fun _ => (0, 0)) (fun _ => (0, 0)) 0 0

/-- The loop `for (j = 0; j < LAST_WIDTH; j++) fft_in[j] = last[wrap(last_idx + j, LAST_WIDTH)];`
(a real value assigned to a complex one gets imaginary part 0). -/
def fillFrame (last : Nat → K) (last_idx : Nat) (fft_in : Nat → K × K) : Nat → K × K :=
  (List.range LAST_WIDTH).foldl
    (fun f j => Function.update f j (last (wrap ((last_idx + j) % 2 ^ 32) LAST_WIDTH), 0)) fft_in

/-- The loop `power = 0; for (j = 0; j < FFT_SIZE; j++) power += fabs(fft_out[j]);`.
`fabs` is the real function of `<math.h>`: the complex argument is converted to
a real one, which keeps its real part only. -/
def sumFabs (fft_out : Nat → K × K) : K :=
  (List.range FFT_SIZE).foldl (fun p j => p + |(fft_out j).1|) 0

/-- The body of the sample loop of `process`, at loop index `i`, on the globals
`st` and the MIDI buffer `midi_out`, for the sample `cur = in[i]`. -/
def tick (fft : (Nat → K × K) → Nat → K × K) (note : Int) (i : Nat)
    (s : State K × List MidiEvent) (cur : K) : State K × List MidiEvent :=
  let st := s.1
  let midi_out := s.2
  let last_idx := wrap ((st.last_idx + 1) % 2 ^ 32) LAST_WIDTH
  let last := Function.update st.last last_idx |cur|
  let fft_in := fillFrame last last_idx st.fft_in
  let fft_out := fft fft_in
  let power := sumFabs fft_out / (FFT_SIZE : K)
  let r : Bool × List MidiEvent :=
    if !st.hit && decide (power > 2) then (true, send_note note midi_out i (1 / 2))
    else if st.hit && decide (power < 0.9) then (false, midi_out)
    else (st.hit, midi_out)
  let d : Nat × K × K :=
    if st.delay = 0 then (30000, 1000000000, -1000000000)
    else ((st.delay - 1) % 2 ^ 32,
          (if power < st.minp then power else st.minp),
          (if power > st.maxp then power else st.maxp))
  (State.mk last last_idx d.1 power r.1 fft_in fft_out d.2.1 d.2.2, r.2)

/-- The sample loop `for (i = 0; i < nframes; i++)` from index `i` on. -/
def loop (fft : (Nat → K × K) → Nat → K × K) (note : Int) :
    Nat → State K × List MidiEvent → List K → State K × List MidiEvent
  | _, s, [] => s
  | i, s, cur :: rest => loop fft note (i + 1) (tick fft note i s cur) rest

/-- Function `process(nframes, arg)` on the input block `inp` (`nframes = inp.length`):
the MIDI buffer is cleared, then every sample is processed in order.  Returns
the globals after the call and the content of the MIDI buffer. -/
def process (fft : (Nat → K × K) → Nat → K × K) (note : Int) (st : State K) (inp : List K) :
    State K × List MidiEvent :=
  loop fft note 0 (st, []) inp

/-- The globals and the MIDI buffer after each iteration of the sample loop,
from index `i` on. -/
def ticks (fft : (Nat → K × K) → Nat → K × K) (note : Int) :
    Nat → State K × List MidiEvent → List K → List (State K × List MidiEvent)
  | _, _, [] => []
  | i, s, cur :: rest => tick fft note i s cur :: ticks fft note (i + 1) (tick fft note i s cur) rest

/-- The loop indices of the block at which `hit` goes from `false` to `true`. -/
def risingTicks (fft : (Nat → K × K) → Nat → K × K) (note : Int) :
    Nat → State K × List MidiEvent → List K → List Nat
  | _, _, [] => []
  | i, s, cur :: rest =>
    (if s.1.hit = false ∧ (tick fft note i s cur).1.hit = true then [i] else [])
      ++ risingTicks fft note (i + 1) (tick fft note i s cur) rest

/-- A session: `process` called on each block in turn.  For every block, the
globals after each of its samples and the MIDI buffer the call leaves. -/
def session (fft : (Nat → K × K) → Nat → K × K) (note : Int) :
    State K → List (List K) → List (List (State K) × List MidiEvent)
  | _, [] => []
  | st, b :: bs =>
    ((ticks fft note 0 (st, []) b).map Prod.fst, (process fft note st b).2)
      :: session fft note (process fft note st b).1 bs

/-- The globals after one iteration of the sample loop (they depend neither on
the loop index nor on the MIDI buffer). -/
def nextState (fft : (Nat → K × K) → Nat → K × K) (st : State K) (cur : K) : State K :=
  (tick fft 0 0 (st, []) cur).1

/-- The globals after the samples `inp`, whatever the blocks they came in. -/
def runState (fft : (Nat → K × K) → Nat → K × K) (st : State K) (inp : List K) : State K :=
  inp.foldl (nextState fft) st

/-- The globals after each of the samples `inp`. -/
def stream (fft : (Nat → K × K) → Nat → K × K) : State K → List K → List (State K)
  | _, [] => []
  | st, cur :: rest => nextState fft st cur :: stream fft (nextState fft st cur) rest

/-- The number of `false`-to-`true` steps of a sequence of `hit` values that
starts after the value `h`. -/
def risingEdges : Bool → List Bool → Nat
  | _, [] => 0
  | h, b :: bs => (if h = false ∧ b = true then 1 else 0) + risingEdges b bs

/-- The number of `true`-to-`false` steps of a sequence of `hit` values that
starts after the value `h`. -/
def fallingEdges : Bool → List Bool → Nat
  | _, [] => 0
  | h, b :: bs => (if h = true ∧ b = false then 1 else 0) + fallingEdges b bs

/-- The note-on message of `send_note` for velocity factor 0.5. -/
def noteOn (note : Int) : MidiEvent := MidiEvent.mk 0 [0x90, note, 63]

/-- The window invariant: the cursor is a valid index and, for `d < LAST_WIDTH`,
the slot `d` places behind the cursor holds the magnitude of the `d`-th most
recent sample of the history `hist` (newest first), or 0 when the history is
shorter. -/
def WindowInv (st : State K) (hist : List K) : Prop :=
  st.last_idx < LAST_WIDTH ∧
  ∀ d, d < LAST_WIDTH →
    st.last ((st.last_idx + LAST_WIDTH - d) % LAST_WIDTH) = |hist.getD d 0|

/-- The globals after `process` has been called on each block in turn. -/
def sessionState (fft : (Nat → K × K) → Nat → K × K) (note : Int) (st : State K)
    (blocks : List (List K)) : State K :=
  blocks.foldl (fun st b => (process fft note st b).1) st

end Generic

/-- Modelled from the spec: the forward discrete frequency transform of size
`FFT_SIZE` that `fftwf_execute(fft_plan)` applies to `fft_in` (FFTW is an
external library; `main` builds the plan with
`fftwf_plan_dft_1d(FFT_SIZE, fft_in, fft_out, FFTW_FORWARD, FFTW_MEASURE)`):
`fft_out[k] = Σ_j fft_in[j] * exp(-2πi·j·k / FFT_SIZE)`, unnormalised. -/
noncomputable def fftwf_execute_dft (fft_in : Nat → ℝ × ℝ) (k : Nat) : ℝ × ℝ :=
  ((∑ j in Finset.range FFT_SIZE, Complex.mk (fft_in j).1 (fft_in j).2
      * Complex.exp (-(2 * (Real.pi : ℂ) * Complex.I * (j : ℂ) * (k : ℂ)) / (FFT_SIZE : ℂ))).re,
   (∑ j in Finset.range FFT_SIZE, Complex.mk (fft_in j).1 (fft_in j).2
      * Complex.exp (-(2 * (Real.pi : ℂ) * Complex.I * (j : ℂ) * (k : ℂ)) / (FFT_SIZE : ℂ))).im)

/-- The primitive 128-th root of unity `exp(-2πi / 128)`. -/
noncomputable def zeta : ℂ := (Complex.exp (2 * (Real.pi : ℂ) * Complex.I / (128 : ℕ)))⁻¹

/-- The transform of a complex frame, written with powers of `zeta`. -/
noncomputable def spectrum (G : ℕ → ℂ) (k : ℕ) : ℂ := ∑ j in Finset.range 128, G j * zeta ^ (j * k)

/-- Every slot of the window holds 0. -/
def ZeroWin (st : State ℝ) : Prop := ∀ j, j < 128 → st.last j = 0

/-- Among the 128 most recent samples of `hist` (newest first), the `a` newest
are 0 and all the older ones have magnitude 10. -/
def TenTail (a : Nat) (hist : List ℝ) : Prop :=
  (∀ d, d < a → hist.getD d 0 = 0) ∧ (∀ d, a ≤ d → d < 128 → |hist.getD d 0| = 10)

section Lemmas

variable {K : Type} [LinearOrderedField K]

theorem velocity_half : MIN 127 (toUChar (1 / 2 * 127)) = 63 := by
  have h : ((1 : ℚ) / 2 * 127) = 127 / 2 := by norm_num
  have hn : ((127 : ℚ) / 2).num = 127 := by norm_num
  have hd : ((127 : ℚ) / 2).den = 2 := by norm_num
  rw [h, toUChar, hn, hd]
  decide

theorem send_note_eq (note : Int) (buf : List MidiEvent) (i : Nat) :
    send_note note buf i (1 / 2) = buf ++ [noteOn note] := by
  simp only [send_note, velocity_half, noteOn]

omit [LinearOrderedField K] in
theorem fillFrame_fold (g : Nat → K × K) (n : Nat) (f : Nat → K × K) (j : Nat) :
    (List.range n).foldl (fun f j => Function.update f j (g j)) f j
      = if j < n then g j else f j := by
  induction n with
  | zero => simp
  | succ n ih =>
    rw [List.range_succ, List.foldl_append, List.foldl_cons, List.foldl_nil]
    by_cases hj : j = n
    · subst hj
      simp
    · rw [Function.update_noteq hj, ih]
      by_cases h1 : j < n
      · simp [h1, Nat.lt_succ_of_lt h1]
      · have h2 : ¬ j < n + 1 := by omega
        simp [h1, h2]

theorem fillFrame_apply (last : Nat → K) (idx : Nat) (f : Nat → K × K) (j : Nat) :
    fillFrame last idx f j
      = if j < LAST_WIDTH then (last (wrap ((idx + j) % 2 ^ 32) LAST_WIDTH), 0) else f j := by
  unfold fillFrame
  exact fillFrame_fold (fun j => (last (wrap ((idx + j) % 2 ^ 32) LAST_WIDTH), 0)) LAST_WIDTH f j

theorem sumFabs_fold (g : Nat → K) (n : Nat) :
    (List.range n).foldl (fun p j => p + g j) 0 = ∑ j in Finset.range n, g j := by
  induction n with
  | zero => simp
  | succ n ih =>
    rw [List.range_succ, List.foldl_append, List.foldl_cons, List.foldl_nil, ih,
      Finset.sum_range_succ]

theorem sumFabs_eq (out : Nat → K × K) :
    sumFabs out = ∑ j in Finset.range FFT_SIZE, |(out j).1| := by
  unfold sumFabs
  exact sumFabs_fold (fun j => |(out j).1|) FFT_SIZE

theorem tick_fst (fft : (Nat → K × K) → Nat → K × K) (note : Int) (i : Nat)
    (s : State K × List MidiEvent) (cur : K) :
    (tick fft note i s cur).1 = nextState fft s.1 cur := by
  simp only [nextState, tick]
  split_ifs <;> rfl

theorem tick_snd (fft : (Nat → K × K) → Nat → K × K) (note : Int) (i : Nat)
    (s : State K × List MidiEvent) (cur : K) :
    (tick fft note i s cur).2
      = s.2 ++ (if s.1.hit = false ∧ (nextState fft s.1 cur).hit = true
          then [noteOn note] else []) := by
  simp only [nextState, tick, send_note_eq]
  cases hh : s.1.hit <;> split_ifs <;> simp_all

theorem nextState_last_idx (fft : (Nat → K × K) → Nat → K × K) (st : State K) (cur : K) :
    (nextState fft st cur).last_idx = wrap ((st.last_idx + 1) % 2 ^ 32) LAST_WIDTH := by
  simp only [nextState, tick]

theorem nextState_last (fft : (Nat → K × K) → Nat → K × K) (st : State K) (cur : K) :
    (nextState fft st cur).last
      = Function.update st.last (wrap ((st.last_idx + 1) % 2 ^ 32) LAST_WIDTH) |cur| := by
  simp only [nextState, tick]

theorem nextState_fft_in (fft : (Nat → K × K) → Nat → K × K) (st : State K) (cur : K) :
    (nextState fft st cur).fft_in
      = fillFrame (nextState fft st cur).last (nextState fft st cur).last_idx st.fft_in := by
  simp only [nextState, tick]

theorem nextState_power (fft : (Nat → K × K) → Nat → K × K) (st : State K) (cur : K) :
    (nextState fft st cur).power
      = sumFabs (fft (nextState fft st cur).fft_in) / (FFT_SIZE : K) := by
  simp only [nextState, tick]

theorem nextState_hit (fft : (Nat → K × K) → Nat → K × K) (st : State K) (cur : K) :
    (nextState fft st cur).hit
      = if st.hit = false ∧ 2 < (nextState fft st cur).power then true
        else if st.hit = true ∧ (nextState fft st cur).power < 0.9 then false
        else st.hit := by
  simp only [nextState, tick]
  generalize sumFabs _ / (FFT_SIZE : K) = p
  cases st.hit <;> by_cases h1 : 2 < p <;> by_cases h2 : p < 0.9 <;> simp [h1, h2]

theorem ticks_map_fst (fft : (Nat → K × K) → Nat → K × K) (note : Int) (inp : List K) :
    ∀ (i : Nat) (s : State K × List MidiEvent),
      (ticks fft note i s inp).map Prod.fst = stream fft s.1 inp := by
  induction inp with
  | nil => intro i s; rfl
  | cons cur rest ih =>
    intro i s
    simp only [ticks, stream, List.map_cons, tick_fst, ih]

theorem stream_idle (fft : (Nat → K × K) → Nat → K × K) (inp : List K) :
    ∀ st : State K, st.hit = false → (∀ t ∈ stream fft st inp, t.power ≤ 2) →
      ∀ t ∈ stream fft st inp, t.hit = false := by
  induction inp with
  | nil => intro st _ _ t ht; simp [stream] at ht
  | cons cur rest ih =>
    intro st hst hp t ht
    simp only [stream, List.mem_cons] at ht hp
    have h1 : (nextState fft st cur).hit = false := by
      rw [nextState_hit, hst]
      have := hp (nextState fft st cur) (Or.inl rfl)
      simp [not_lt.mpr this]
    rcases ht with rfl | ht
    · exact h1
    · exact ih _ h1 (fun u hu => hp u (Or.inr hu)) t ht

theorem loop_fst (fft : (Nat → K × K) → Nat → K × K) (note : Int) (inp : List K) :
    ∀ (i : Nat) (s : State K × List MidiEvent),
      (loop fft note i s inp).1 = runState fft s.1 inp := by
  induction inp with
  | nil => intro i s; rfl
  | cons cur rest ih =>
    intro i s
    simp only [loop, runState, List.foldl_cons, ih, tick_fst]

theorem process_fst (fft : (Nat → K × K) → Nat → K × K) (note : Int) (st : State K)
    (inp : List K) : (process fft note st inp).1 = runState fft st inp :=
  loop_fst fft note inp 0 (st, [])

theorem loop_snd (fft : (Nat → K × K) → Nat → K × K) (note : Int) (inp : List K) :
    ∀ (i : Nat) (s : State K × List MidiEvent),
      (loop fft note i s inp).2
        = s.2 ++ (risingTicks fft note i s inp).map (fun _ => noteOn note) := by
  induction inp with
  | nil => intro i s; simp [loop, risingTicks]
  | cons cur rest ih =>
    intro i s
    simp only [loop, risingTicks, ih, tick_snd, tick_fst, List.map_append, List.append_assoc]
    split_ifs <;> simp

theorem risingTicks_length (fft : (Nat → K × K) → Nat → K × K) (note : Int) (inp : List K) :
    ∀ (i : Nat) (s : State K × List MidiEvent),
      (risingTicks fft note i s inp).length
        = risingEdges s.1.hit ((stream fft s.1 inp).map State.hit) := by
  induction inp with
  | nil => intro i s; rfl
  | cons cur rest ih =>
    intro i s
    simp only [risingTicks, stream, List.map_cons, risingEdges, List.length_append, ih, tick_fst]
    split_ifs <;> simp

theorem process_snd (fft : (Nat → K × K) → Nat → K × K) (note : Int) (st : State K)
    (inp : List K) :
    (process fft note st inp).2
      = List.replicate (risingEdges st.hit ((stream fft st inp).map State.hit)) (noteOn note) := by
  unfold process
  rw [loop_snd, List.nil_append, ← risingTicks_length fft note inp 0 (st, [])]
  exact List.eq_replicate_iff.mpr ⟨by simp, by simp⟩

/-- C1: hysteresis step rule.  At every sample tick, with `p` the metric computed
at that tick, the new `hit` is `true` if it was `false` and `p > 2`, `false` if
it was `true` and `p < 0.9`, and unchanged otherwise; in particular it is
unchanged whenever `0.9 ≤ p ≤ 2`, and a run that starts with `hit = false` and
whose metric never exceeds 2 keeps `hit = false` after every tick. -/
theorem hysteresis_step (fft : (Nat → K × K) → Nat → K × K) (note : Int) (i : Nat)
    (s : State K × List MidiEvent) (cur : K) :
    ((tick fft note i s cur).1.hit
      = if s.1.hit = false ∧ 2 < (tick fft note i s cur).1.power then true
        else if s.1.hit = true ∧ (tick fft note i s cur).1.power < 0.9 then false
        else s.1.hit) ∧
    (0.9 ≤ (tick fft note i s cur).1.power → (tick fft note i s cur).1.power ≤ 2 →
      (tick fft note i s cur).1.hit = s.1.hit) ∧
    (∀ inp : List K, s.1.hit = false →
      (∀ t ∈ ticks fft note i s inp, t.1.power ≤ 2) →
      ∀ t ∈ ticks fft note i s inp, t.1.hit = false) := by
  refine ⟨?_, ?_, ?_⟩
  · rw [tick_fst]
    exact nextState_hit fft s.1 cur
  · intro h1 h2
    rw [tick_fst] at h1 h2 ⊢
    rw [nextState_hit]
    simp [not_lt.mpr h1, not_lt.mpr h2]
  · intro inp hs hp t ht
    have hmem : t.1 ∈ stream fft s.1 inp := by
      rw [← ticks_map_fst fft note inp i s]
      exact List.mem_map_of_mem _ ht
    refine stream_idle fft inp s.1 hs ?_ t.1 hmem
    intro u hu
    rw [← ticks_map_fst fft note inp i s] at hu
    obtain ⟨v, hv, rfl⟩ := List.mem_map.mp hu
    exact hp v hv

/-- C2: the number of note events `process` leaves in the MIDI buffer of a block
equals the number of loop indices of that block at which `hit` goes from
`false` to `true`; a tick appends exactly one event when `hit` goes from `false`
to `true` and leaves the buffer as it is otherwise. -/
theorem note_count (fft : (Nat → K × K) → Nat → K × K) (note : Int) (st : State K)
    (inp : List K) :
    (process fft note st inp).2.length = (risingTicks fft note 0 (st, []) inp).length ∧
    (∀ (i : Nat) (s : State K × List MidiEvent) (cur : K),
      (tick fft note i s cur).2.length
        = s.2.length
          + (if s.1.hit = false ∧ (tick fft note i s cur).1.hit = true then 1 else 0) ∧
      ∃ l, (tick fft note i s cur).2 = s.2 ++ l) := by
  refine ⟨?_, ?_⟩
  · unfold process
    rw [loop_snd]
    simp
  · intro i s cur
    rw [tick_snd, tick_fst]
    refine ⟨?_, _, rfl⟩
    split_ifs <;> simp

/-- C5: every note message `process` emits is the three bytes `0x90`, the
configured pitch and velocity 63 (the value of `MIN(127, (unsigned char)(0.5 * 127))`),
whatever the transform output and the samples; the velocity byte lies in `[0, 127]`. -/
theorem note_bytes (fft : (Nat → K × K) → Nat → K × K) (note : Int) (st : State K)
    (inp : List K) (e : MidiEvent) (he : e ∈ (process fft note st inp).2) :
    e.data = [0x90, note, MIN 127 (toUChar (1 / 2 * 127))] ∧
    e.data = [0x90, note, 63] ∧
    (0 ≤ MIN 127 (toUChar (1 / 2 * 127)) ∧ MIN 127 (toUChar (1 / 2 * 127)) ≤ 127) := by
  rw [process_snd] at he
  have h := List.eq_of_mem_replicate he
  subst h
  rw [velocity_half]
  exact ⟨rfl, rfl, by decide, by decide⟩

theorem windowInv_init : WindowInv (State.init : State K) [] := by
  refine ⟨by simp [State.init, LAST_WIDTH, FFT_SIZE], ?_⟩
  intro d _
  simp [State.init]

theorem windowInv_step (fft : (Nat → K × K) → Nat → K × K) (st : State K) (hist : List K)
    (cur : K) (h : WindowInv st hist) : WindowInv (nextState fft st cur) (cur :: hist) := by
  obtain ⟨hidx, hslots⟩ := h
  have hi : (nextState fft st cur).last_idx = (st.last_idx + 1) % 128 := by
    rw [nextState_last_idx]
    simp only [wrap, LAST_WIDTH, FFT_SIZE] at hidx ⊢
    omega
  refine ⟨?_, ?_⟩
  · rw [hi]
    simp only [LAST_WIDTH, FFT_SIZE]
    omega
  · intro d hd
    rw [nextState_last, ← nextState_last_idx fft st cur, hi]
    simp only [LAST_WIDTH, FFT_SIZE] at hidx hd hslots ⊢
    cases d with
    | zero =>
      have e : ((st.last_idx + 1) % 128 + 128 - 0) % 128 = (st.last_idx + 1) % 128 := by omega
      rw [e, Function.update_same, List.getD_cons_zero]
    | succ d =>
      have e : ((st.last_idx + 1) % 128 + 128 - (d + 1)) % 128
          = (st.last_idx + 128 - d) % 128 := by omega
      have ne : (st.last_idx + 128 - d) % 128 ≠ (st.last_idx + 1) % 128 := by omega
      rw [e, Function.update_noteq ne, List.getD_cons_succ]
      exact hslots d (by omega)

theorem windowInv_run (fft : (Nat → K × K) → Nat → K × K) (xs : List K) :
    ∀ (st : State K) (hist : List K), WindowInv st hist →
      WindowInv (runState fft st xs) (xs.reverse ++ hist) := by
  induction xs with
  | nil => intro st hist h; simpa [runState] using h
  | cons x xs ih =>
    intro st hist h
    have := ih (nextState fft st x) (x :: hist) (windowInv_step fft st hist x h)
    simpa [runState, List.reverse_cons, List.append_assoc] using this

theorem last_idx_run (fft : (Nat → K × K) → Nat → K × K) (xs : List K) :
    ∀ st : State K, st.last_idx < 128 →
      (runState fft st xs).last_idx = (st.last_idx + xs.length) % 128 := by
  induction xs with
  | nil => intro st h; simp only [runState, List.foldl_nil, List.length_nil]; omega
  | cons x xs ih =>
    intro st h
    have hi : (nextState fft st x).last_idx = (st.last_idx + 1) % 128 := by
      rw [nextState_last_idx]
      simp only [wrap, LAST_WIDTH, FFT_SIZE]
      omega
    have := ih (nextState fft st x) (by rw [hi]; omega)
    simp only [runState, List.foldl_cons, List.length_cons] at this ⊢
    rw [this, hi]
    omega

theorem runState_append (fft : (Nat → K × K) → Nat → K × K) (st : State K) (xs ys : List K) :
    runState fft st (xs ++ ys) = runState fft (runState fft st xs) ys := by
  simp [runState, List.foldl_append]

theorem sessionState_eq (fft : (Nat → K × K) → Nat → K × K) (note : Int)
    (blocks : List (List K)) :
    ∀ st : State K, sessionState fft note st blocks = runState fft st blocks.flatten := by
  induction blocks with
  | nil => intro st; rfl
  | cons b bs ih =>
    intro st
    have := ih (process fft note st b).1
    simp only [sessionState, List.foldl_cons, List.flatten_cons, runState_append] at this ⊢
    rw [this, process_fst]

theorem getD_reverse_lt (xs : List K) (d : Nat) (h : d < xs.length) :
    xs.reverse.getD d 0 = xs.getD (xs.length - d - 1) 0 := by
  rw [List.getD_eq_getElem _ _ (by simpa using h), List.getD_eq_getElem _ _ (by omega),
    List.getElem_reverse]
  congr 1
  omega

/-- C9: window invariant.  After `process` has consumed the `k` samples of any
sequence of blocks from the initial globals, the cursor `last_idx` is `k % 128`
(a valid index), slot `(k - d) % 128` holds the magnitude of the sample number
`k - d` for every `d < min k 128`, every other slot holds 0, and a tick writes
the slot after the cursor only. -/
theorem window_contents (fft : (Nat → K × K) → Nat → K × K) (note : Int)
    (blocks : List (List K)) :
    (sessionState fft note State.init blocks).last_idx = blocks.flatten.length % 128 ∧
    (sessionState fft note State.init blocks).last_idx < 128 ∧
    (∀ d, d < min blocks.flatten.length 128 →
      (sessionState fft note State.init blocks).last ((blocks.flatten.length - d) % 128)
        = |blocks.flatten.getD (blocks.flatten.length - d - 1) 0|) ∧
    (∀ slot, slot < 128 →
      (∀ d, d < min blocks.flatten.length 128 → slot ≠ (blocks.flatten.length - d) % 128) →
      (sessionState fft note State.init blocks).last slot = 0) ∧
    (∀ (i : Nat) (s : State K × List MidiEvent) (cur : K), s.1.last_idx < 128 →
      (tick fft note i s cur).1.last_idx = (s.1.last_idx + 1) % 128 ∧
      (tick fft note i s cur).1.last ((s.1.last_idx + 1) % 128) = |cur| ∧
      ∀ slot, slot ≠ (s.1.last_idx + 1) % 128 →
        (tick fft note i s cur).1.last slot = s.1.last slot) := by
  have hinv := windowInv_run fft blocks.flatten State.init [] windowInv_init
  have hidx := last_idx_run fft blocks.flatten State.init (by simp [State.init])
  rw [← sessionState_eq fft note] at hinv hidx
  rw [List.append_nil] at hinv
  have h0 : (State.init : State K).last_idx = 0 := rfl
  rw [h0, Nat.zero_add] at hidx
  obtain ⟨hlt, hslots⟩ := hinv
  simp only [LAST_WIDTH, FFT_SIZE] at hlt hslots
  rw [hidx] at hslots
  refine ⟨hidx, hlt, ?_, ?_, ?_⟩
  · intro d hd
    have hd1 : d < blocks.flatten.length := lt_of_lt_of_le hd (min_le_left _ _)
    have hd2 : d < 128 := lt_of_lt_of_le hd (min_le_right _ _)
    have e : (blocks.flatten.length - d) % 128
        = (blocks.flatten.length % 128 + 128 - d) % 128 := by omega
    rw [e, hslots d hd2, getD_reverse_lt _ _ hd1]
  · intro slot hslot hne
    have e : slot = (blocks.flatten.length % 128 + 128
        - (blocks.flatten.length % 128 + 128 - slot) % 128) % 128 := by omega
    have hd2 : (blocks.flatten.length % 128 + 128 - slot) % 128 < 128 := by omega
    have hge : blocks.flatten.length ≤ (blocks.flatten.length % 128 + 128 - slot) % 128 := by
      by_contra hcon
      push_neg at hcon
      refine hne _ (lt_min hcon hd2) ?_
      omega
    rw [e, hslots _ hd2, List.getD_eq_default _ _ (by simpa using hge), abs_zero]
  · intro i s cur hs
    have hi : wrap ((s.1.last_idx + 1) % 2 ^ 32) LAST_WIDTH = (s.1.last_idx + 1) % 128 := by
      simp only [wrap, LAST_WIDTH, FFT_SIZE]
      omega
    rw [tick_fst, nextState_last_idx, nextState_last, hi]
    refine ⟨rfl, Function.update_same _ _ _, ?_⟩
    intro slot hne
    exact Function.update_noteq hne _ _

theorem nextState_frame (fft : (Nat → K × K) → Nat → K × K) (st : State K) (cur : K)
    (j : Nat) (hj : j < 128) :
    (nextState fft st cur).fft_in j
      = ((nextState fft st cur).last (((nextState fft st cur).last_idx + j) % 128), 0) := by
  have hlt : (nextState fft st cur).last_idx < 128 := by
    rw [nextState_last_idx]
    simp only [wrap, LAST_WIDTH, FFT_SIZE]
    omega
  rw [nextState_fft_in, fillFrame_apply]
  simp only [wrap, LAST_WIDTH, FFT_SIZE, hj, if_true]
  have e : ((nextState fft st cur).last_idx + j) % 2 ^ 32 % 128
      = ((nextState fft st cur).last_idx + j) % 128 := by omega
  rw [e]

theorem frame_of_inv (fft : (Nat → K × K) → Nat → K × K) (st : State K) (cur : K)
    (hist : List K) (h : WindowInv st hist) (j : Nat) (hj : j < 128) :
    (nextState fft st cur).fft_in j = (|(cur :: hist).getD ((128 - j) % 128) 0|, 0) := by
  obtain ⟨hlt, hslots⟩ := windowInv_step fft st hist cur h
  simp only [LAST_WIDTH, FFT_SIZE] at hlt hslots
  rw [nextState_frame fft st cur j hj, ← hslots ((128 - j) % 128) (by omega)]
  congr 2
  omega

theorem frame_run (fft : (Nat → K × K) → Nat → K × K) (xs : List K) (j : Nat) (hj : j < 128) :
    (runState fft State.init xs).fft_in j = (|xs.reverse.getD ((128 - j) % 128) 0|, 0) := by
  rcases List.eq_nil_or_concat xs with rfl | ⟨ys, c, rfl⟩
  · simp [runState, State.init]
  · have hinv := windowInv_run fft ys State.init [] windowInv_init
    rw [List.append_nil] at hinv
    have e : runState fft State.init (ys ++ [c])
        = nextState fft (runState fft State.init ys) c := by
      simp [runState, List.foldl_append]
    rw [List.concat_eq_append, e, frame_of_inv fft _ c _ hinv j hj, List.reverse_append,
      List.reverse_singleton, List.singleton_append]

/-- C8 (amended): at every sample tick the frame handed to the transform starts
with the magnitude of the sample just pushed, followed by the other stored
values from oldest to newest: `fft_in[0]` is the newest magnitude and, for
`1 ≤ j < 128`, `fft_in[j]` is the magnitude of the sample `128 - j` places
before the newest (the `j`-th oldest stored value, 0 while the history is
shorter); every imaginary part is 0. -/
theorem frame_contents (fft : (Nat → K × K) → Nat → K × K) (note : Int)
    (blocks : List (List K)) :
    (blocks.flatten ≠ [] →
      (sessionState fft note State.init blocks).fft_in 0
        = (|blocks.flatten.reverse.getD 0 0|, 0) ∧
      ∀ j, 1 ≤ j → j < 128 →
        (sessionState fft note State.init blocks).fft_in j
          = (|blocks.flatten.reverse.getD (128 - j) 0|, 0)) ∧
    (∀ (i : Nat) (s : State K × List MidiEvent) (cur : K),
      (tick fft note i s cur).1.fft_in 0 = (|cur|, 0) ∧
      ∀ j, j < 128 →
        (tick fft note i s cur).1.fft_in j
          = ((tick fft note i s cur).1.last (((tick fft note i s cur).1.last_idx + j) % 128), 0))
    := by
  rw [sessionState_eq]
  refine ⟨fun _ => ⟨?_, ?_⟩, ?_⟩
  · exact frame_run fft _ 0 (by omega)
  · intro j h1 h2
    rw [frame_run fft _ j h2]
    congr 3
    omega
  · intro i s cur
    rw [tick_fst]
    refine ⟨?_, fun j hj => nextState_frame fft s.1 cur j hj⟩
    have hlt : (nextState fft s.1 cur).last_idx < 128 := by
      rw [nextState_last_idx]
      simp only [wrap, LAST_WIDTH, FFT_SIZE]
      omega
    rw [nextState_frame fft s.1 cur 0 (by omega), Nat.add_zero, Nat.mod_eq_of_lt hlt,
      nextState_last, ← nextState_last_idx fft s.1 cur, Function.update_same]

end Lemmas

theorem frame_contents_witness :
    [[(1 : ℚ)], [2]].flatten ≠ [] ∧ (1 ≤ 127) ∧ (127 < 128) ∧
    (sessionState (fun x => x) 48 (State.init : State ℚ) [[1], [2]]).fft_in 127
      = (|[[(1 : ℚ)], [2]].flatten.reverse.getD (128 - 127) 0|, 0) :=
  ⟨by simp, by decide, by decide,
    ((frame_contents (fun x => x) 48 [[(1 : ℚ)], [2]]).1 (by simp)).2 127
      (by decide) (by decide)⟩

/-- C8 as stated fails: after the block `[1, 2]` from the initial globals, the
last frame entry `fft_in[127]` holds the magnitude of the previous sample, 1,
not that of the sample just pushed, 2, which is in `fft_in[0]`. -/
theorem frame_order_counterexample :
    (process (fun x => x) 48 (State.init : State ℚ) [1, 2]).1.fft_in (FFT_SIZE - 1) ≠ (|2|, 0) ∧
    (process (fun x => x) 48 (State.init : State ℚ) [1, 2]).1.fft_in (FFT_SIZE - 1) = (|1|, 0) ∧
    (process (fun x => x) 48 (State.init : State ℚ) [1, 2]).1.fft_in 0 = (|2|, 0) := by
  rw [process_fst, frame_run _ _ _ (by decide), frame_run _ _ _ (by decide)]
  simp [FFT_SIZE]

section Transform

open Finset

theorem zeta_prim : IsPrimitiveRoot zeta 128 :=
  (Complex.isPrimitiveRoot_exp 128 (by norm_num)).inv

theorem twiddle_eq (j k : Nat) :
    Complex.exp (-(2 * (Real.pi : ℂ) * Complex.I * (j : ℂ) * (k : ℂ)) / (FFT_SIZE : ℂ))
      = zeta ^ (j * k) := by
  unfold zeta FFT_SIZE
  rw [← Complex.exp_neg, ← Complex.exp_nat_mul]
  congr 1
  push_cast
  ring

theorem dft_eq_spectrum (F : Nat → ℝ × ℝ) (k : Nat) :
    fftwf_execute_dft F k
      = ((spectrum (fun j => Complex.mk (F j).1 (F j).2) k).re,
         (spectrum (fun j => Complex.mk (F j).1 (F j).2) k).im) := by
  unfold fftwf_execute_dft spectrum
  simp only [twiddle_eq]
  rfl

theorem zeta_orth (m : Nat) :
    ∑ k in range 128, zeta ^ (m * k) = if 128 ∣ m then 128 else 0 := by
  have hpow : ∀ k, zeta ^ (m * k) = (zeta ^ m) ^ k := fun k => pow_mul zeta m k
  simp only [hpow]
  split_ifs with h
  · rw [(zeta_prim.pow_eq_one_iff_dvd m).mpr h]
    simp
  · have hne : zeta ^ m ≠ 1 := fun hc => h ((zeta_prim.pow_eq_one_iff_dvd m).mp hc)
    have h1 : (zeta ^ m) ^ 128 = 1 := by
      rw [← pow_mul, mul_comm, pow_mul, zeta_prim.pow_eq_one, one_pow]
    have hg := geom_sum_mul (zeta ^ m) 128
    rw [h1, sub_self] at hg
    rcases mul_eq_zero.mp hg with h2 | h2
    · exact h2
    · exact absurd (sub_eq_zero.mp h2) hne

theorem sum_spectrum_mul (G : ℕ → ℂ) (m : ℕ) :
    ∑ k in range 128, spectrum G k * zeta ^ (m * k)
      = 128 * ∑ j in range 128, if 128 ∣ j + m then G j else 0 := by
  unfold spectrum
  simp only [Finset.sum_mul]
  rw [Finset.sum_comm, Finset.mul_sum]
  refine Finset.sum_congr rfl (fun j _ => ?_)
  have hk : ∀ k, G j * zeta ^ (j * k) * zeta ^ (m * k) = G j * zeta ^ ((j + m) * k) := by
    intro k
    rw [mul_assoc, ← pow_add, add_mul]
  simp only [hk]
  rw [← Finset.mul_sum, zeta_orth]
  split_ifs <;> ring

theorem sum_spectrum (G : ℕ → ℂ) : ∑ k in range 128, spectrum G k = 128 * G 0 := by
  have h := sum_spectrum_mul G 0
  simp only [Nat.zero_mul, pow_zero, mul_one, Nat.add_zero] at h
  rw [h, Finset.sum_eq_single 0]
  · simp
  · intro j hj hne
    have hnd : ¬ 128 ∣ j := by
      have := Finset.mem_range.mp hj
      omega
    simp [hnd]
  · simp

theorem sum_spectrum_one (G : ℕ → ℂ) :
    ∑ k in range 128, spectrum G k * zeta ^ (1 * k) = 128 * G 127 := by
  rw [sum_spectrum_mul, Finset.sum_eq_single 127]
  · simp
  · intro j hj hne
    have hnd : ¬ 128 ∣ j + 1 := by
      have := Finset.mem_range.mp hj
      omega
    simp [hnd]
  · simp

theorem sum_spectrum_last (G : ℕ → ℂ) :
    ∑ k in range 128, spectrum G k * zeta ^ (127 * k) = 128 * G 1 := by
  rw [sum_spectrum_mul, Finset.sum_eq_single 1]
  · simp
  · intro j hj hne
    have hnd : ¬ 128 ∣ j + 127 := by
      have := Finset.mem_range.mp hj
      omega
    simp [hnd]
  · simp

theorem abs_zeta : Complex.abs zeta = 1 := by
  unfold zeta
  rw [map_inv₀, Complex.abs_exp]
  simp

theorem zeta_conj (k : ℕ) : zeta ^ (127 * k) = (starRingEnd ℂ) (zeta ^ (1 * k)) := by
  have hz : (starRingEnd ℂ) zeta = zeta ^ 127 := by
    have h1 : zeta * zeta ^ 127 = 1 := by
      rw [← pow_succ', zeta_prim.pow_eq_one]
    have h3 : zeta * (starRingEnd ℂ) zeta = 1 := by
      rw [Complex.mul_conj, Complex.normSq_eq_abs, abs_zeta]
      simp
    have hz0 : zeta ≠ 0 := fun h => by
      have h2 := abs_zeta
      rw [h] at h2
      simp at h2
    exact mul_left_cancel₀ hz0 (h3.trans h1.symm)
  rw [one_mul, map_pow, hz, ← pow_mul]

theorem sumFabs_dft (F : Nat → ℝ × ℝ) :
    sumFabs (fftwf_execute_dft F)
      = ∑ k in range 128, |(spectrum (fun j => Complex.mk (F j).1 (F j).2) k).re| := by
  rw [sumFabs_eq]
  simp only [dft_eq_spectrum, FFT_SIZE]

theorem sum_re_dft (F : Nat → ℝ × ℝ) :
    ∑ k in range 128, (fftwf_execute_dft F k).1 = 128 * (F 0).1 := by
  have h := congrArg Complex.re (sum_spectrum (fun j => Complex.mk (F j).1 (F j).2))
  rw [Complex.re_sum] at h
  have h2 : ((128 : ℂ) * Complex.mk (F 0).1 (F 0).2).re = 128 * (F 0).1 := by
    simp
  rw [h2] at h
  simp only [dft_eq_spectrum]
  exact h

theorem sumFabs_ge_first (F : Nat → ℝ × ℝ) :
    128 * (F 0).1 ≤ sumFabs (fftwf_execute_dft F) := by
  rw [sumFabs_eq, ← sum_re_dft]
  exact Finset.sum_le_sum (fun k _ => le_abs_self _)

theorem sumFabs_ge_pair (F : Nat → ℝ × ℝ) :
    128 * ((F 1).1 + (F 127).1) ≤ 2 * sumFabs (fftwf_execute_dft F) := by
  rw [sumFabs_dft, Finset.mul_sum]
  have h1 := sum_spectrum_one (fun j => Complex.mk (F j).1 (F j).2)
  have h2 := sum_spectrum_last (fun j => Complex.mk (F j).1 (F j).2)
  have h3 : ∑ k in range 128, spectrum (fun j => Complex.mk (F j).1 (F j).2) k
        * (((2 * (zeta ^ (1 * k)).re : ℝ) : ℂ))
      = 128 * Complex.mk (F 127).1 (F 127).2 + 128 * Complex.mk (F 1).1 (F 1).2 := by
    rw [← h1, ← h2, ← Finset.sum_add_distrib]
    refine Finset.sum_congr rfl (fun k _ => ?_)
    rw [zeta_conj k, ← mul_add, Complex.add_conj]
  have h4 := congrArg Complex.re h3
  rw [Complex.re_sum] at h4
  have h5 : ((128 : ℂ) * Complex.mk (F 127).1 (F 127).2
      + 128 * Complex.mk (F 1).1 (F 1).2).re = 128 * ((F 1).1 + (F 127).1) := by
    simp
    ring
  rw [h5] at h4
  rw [← h4]
  refine Finset.sum_le_sum (fun k _ => ?_)
  rw [Complex.re_mul_ofReal]
  have hz : |(zeta ^ (1 * k)).re| ≤ 1 := by
    refine (Complex.abs_re_le_abs _).trans ?_
    rw [map_pow, abs_zeta, one_pow]
  have ha := abs_nonneg (spectrum (fun j => Complex.mk (F j).1 (F j).2) k).re
  calc (spectrum (fun j => Complex.mk (F j).1 (F j).2) k).re * (2 * (zeta ^ (1 * k)).re)
      ≤ |(spectrum (fun j => Complex.mk (F j).1 (F j).2) k).re * (2 * (zeta ^ (1 * k)).re)| :=
        le_abs_self _
    _ = |(spectrum (fun j => Complex.mk (F j).1 (F j).2) k).re| * (2 * |(zeta ^ (1 * k)).re|) := by
        rw [abs_mul, abs_mul, abs_two]
    _ ≤ 2 * |(spectrum (fun j => Complex.mk (F j).1 (F j).2) k).re| := by
        nlinarith

theorem sumFabs_zero (F : Nat → ℝ × ℝ) (h : ∀ j, j < 128 → F j = (0, 0)) :
    sumFabs (fftwf_execute_dft F) = 0 := by
  rw [sumFabs_dft]
  refine Finset.sum_eq_zero (fun k _ => ?_)
  have hs : spectrum (fun j => Complex.mk (F j).1 (F j).2) k = 0 := by
    unfold spectrum
    refine Finset.sum_eq_zero (fun j hj => ?_)
    have hz : Complex.mk 0 0 = 0 := rfl
    simp only [h j (Finset.mem_range.mp hj), hz, zero_mul]
  rw [hs]
  simp

theorem nextState_frame_zero (fft : (Nat → ℝ × ℝ) → Nat → ℝ × ℝ) (st : State ℝ) (cur : ℝ) :
    (nextState fft st cur).fft_in 0 = (|cur|, 0) := by
  have hlt : (nextState fft st cur).last_idx < 128 := by
    rw [nextState_last_idx]
    simp only [wrap, LAST_WIDTH, FFT_SIZE]
    omega
  rw [nextState_frame fft st cur 0 (by omega), Nat.add_zero, Nat.mod_eq_of_lt hlt,
    nextState_last, ← nextState_last_idx fft st cur, Function.update_same]

theorem nextState_fft_out (fft : (Nat → ℝ × ℝ) → Nat → ℝ × ℝ) (st : State ℝ) (cur : ℝ) :
    (nextState fft st cur).fft_out = fft (nextState fft st cur).fft_in := by
  simp only [nextState, tick]

theorem power_ge_cur (st : State ℝ) (cur : ℝ) :
    |cur| ≤ (nextState fftwf_execute_dft st cur).power := by
  rw [nextState_power]
  have h := sumFabs_ge_first (nextState fftwf_execute_dft st cur).fft_in
  rw [nextState_frame_zero] at h
  simp only [FFT_SIZE]
  rw [le_div_iff₀ (by norm_num)]
  push_cast
  linarith

theorem power_ge_old (st : State ℝ) (cur : ℝ) (hist : List ℝ) (h : WindowInv st hist) :
    (|hist.getD 126 0| + |hist.getD 0 0|) / 2 ≤ (nextState fftwf_execute_dft st cur).power := by
  rw [nextState_power]
  have hp := sumFabs_ge_pair (nextState fftwf_execute_dft st cur).fft_in
  rw [frame_of_inv fftwf_execute_dft st cur hist h 1 (by omega),
    frame_of_inv fftwf_execute_dft st cur hist h 127 (by omega)] at hp
  have e1 : (cur :: hist).getD ((128 - 1) % 128) 0 = hist.getD 126 0 := rfl
  have e2 : (cur :: hist).getD ((128 - 127) % 128) 0 = hist.getD 0 0 := rfl
  rw [e1, e2] at hp
  simp only [FFT_SIZE]
  rw [le_div_iff₀ (by norm_num)]
  push_cast
  linarith

theorem zeroWin_step (fft : (Nat → ℝ × ℝ) → Nat → ℝ × ℝ) (st : State ℝ) (h : ZeroWin st) :
    ZeroWin (nextState fft st 0) := by
  intro j hj
  rw [nextState_last]
  by_cases e : j = wrap ((st.last_idx + 1) % 2 ^ 32) LAST_WIDTH
  · rw [e, Function.update_same, abs_zero]
  · rw [Function.update_noteq e]
    exact h j hj

theorem zeroWin_power (st : State ℝ) (cur : ℝ) (h : ZeroWin (nextState fftwf_execute_dft st cur)) :
    (nextState fftwf_execute_dft st cur).power = 0 := by
  rw [nextState_power, sumFabs_zero, zero_div]
  intro j hj
  rw [nextState_frame _ _ _ j hj, h _ (Nat.mod_lt _ (by norm_num))]

theorem hit_of_power_zero (fft : (Nat → ℝ × ℝ) → Nat → ℝ × ℝ) (st : State ℝ) (cur : ℝ)
    (h : (nextState fft st cur).power = 0) : (nextState fft st cur).hit = false := by
  rw [nextState_hit, h]
  cases st.hit <;> norm_num

theorem hit_of_power_ge (fft : (Nat → ℝ × ℝ) → Nat → ℝ × ℝ) (st : State ℝ) (cur : ℝ)
    (hs : st.hit = true) (h : 0.9 ≤ (nextState fft st cur).power) :
    (nextState fft st cur).hit = true := by
  rw [nextState_hit, hs]
  simp [not_lt.mpr h]

theorem hit_of_power_gt (fft : (Nat → ℝ × ℝ) → Nat → ℝ × ℝ) (st : State ℝ) (cur : ℝ)
    (h : 2 < (nextState fft st cur).power) : (nextState fft st cur).hit = true := by
  rw [nextState_hit]
  have h9 : ¬ (nextState fft st cur).power < 0.9 := by
    rw [not_lt]
    refine le_trans ?_ h.le
    norm_num
  cases st.hit <;> simp [h, h9]

theorem zero_stream (n : Nat) :
    ∀ st : State ℝ, ZeroWin st →
      (stream fftwf_execute_dft st (List.replicate n 0)).map (fun t => (t.power, t.hit))
        = List.replicate n (0, false) ∧
      ZeroWin (runState fftwf_execute_dft st (List.replicate n 0)) := by
  induction n with
  | zero => intro st h; exact ⟨rfl, h⟩
  | succ n ih =>
    intro st h
    have hz := zeroWin_step fftwf_execute_dft st h
    have hp := zeroWin_power st 0 hz
    have hh := hit_of_power_zero fftwf_execute_dft st 0 hp
    obtain ⟨h1, h2⟩ := ih _ hz
    refine ⟨?_, ?_⟩
    · simp only [List.replicate_succ, stream, List.map_cons, h1, hp, hh]
    · simpa only [List.replicate_succ, runState, List.foldl_cons] using h2

theorem risingEdges_false (n : Nat) (h : Bool) : risingEdges h (List.replicate n false) = 0 := by
  induction n generalizing h with
  | zero => rfl
  | succ n ih => simp [List.replicate_succ, risingEdges, ih]

theorem zero_session (note : Int) (lens : List Nat) :
    ∀ st : State ℝ, ZeroWin st →
      (session fftwf_execute_dft note st (lens.map (fun n => List.replicate n 0))).map
          (fun r => (r.1.map State.power, r.1.map State.hit, r.2))
        = lens.map (fun n => (List.replicate n 0, List.replicate n false, [])) := by
  induction lens with
  | nil => intro st _; rfl
  | cons n lens ih =>
    intro st h
    obtain ⟨h1, h2⟩ := zero_stream n st h
    have hpow : (stream fftwf_execute_dft st (List.replicate n 0)).map State.power
        = List.replicate n 0 := by
      have := congrArg (List.map Prod.fst) h1
      simpa [List.map_map, Function.comp_def] using this
    have hhit : (stream fftwf_execute_dft st (List.replicate n 0)).map State.hit
        = List.replicate n false := by
      have := congrArg (List.map Prod.snd) h1
      simpa [List.map_map, Function.comp_def] using this
    rw [← process_fst fftwf_execute_dft note] at h2
    simp only [List.map_cons, session, ticks_map_fst, hpow, hhit, ih _ h2, process_snd,
      risingEdges_false, List.replicate_zero]

/-- C7: for every split of zero samples into blocks (block lengths `lens`),
running `process` on the blocks from the initial globals computes metric 0 at
every tick, leaves `hit = false` after every tick, and leaves every MIDI buffer
empty. -/
theorem zero_input (note : Int) (lens : List Nat) :
    (session fftwf_execute_dft note State.init (lens.map (fun n => List.replicate n 0))).map
        (fun r => (r.1.map State.power, r.1.map State.hit, r.2))
      = lens.map (fun n => (List.replicate n (0 : ℝ), List.replicate n false, [])) :=
  zero_session note lens State.init (fun _ _ => rfl)

theorem stream_append (fft : (Nat → ℝ × ℝ) → Nat → ℝ × ℝ) (xs ys : List ℝ) :
    ∀ st : State ℝ,
      stream fft st (xs ++ ys) = stream fft st xs ++ stream fft (runState fft st xs) ys := by
  induction xs with
  | nil => intro st; rfl
  | cons x xs ih =>
    intro st
    simp only [List.cons_append, stream, List.append_eq, ih, runState, List.foldl_cons]

theorem runState_hit (fft : (Nat → ℝ × ℝ) → Nat → ℝ × ℝ) (xs : List ℝ) :
    ∀ st : State ℝ,
      (runState fft st xs).hit = ((stream fft st xs).map State.hit).getLastD st.hit := by
  induction xs with
  | nil => intro st; rfl
  | cons x xs ih =>
    intro st
    have h := ih (nextState fft st x)
    simp only [runState, List.foldl_cons, stream, List.map_cons] at h ⊢
    rw [h]
    cases hs : List.map State.hit (stream fft (nextState fft st x) xs) with
    | nil => rfl
    | cons b bs => simp [List.getLastD]

theorem risingEdges_append (a b : List Bool) :
    ∀ h : Bool, risingEdges h (a ++ b) = risingEdges h a + risingEdges (a.getLastD h) b := by
  induction a with
  | nil => intro h; simp [risingEdges]
  | cons x a ih =>
    intro h
    have e : (x :: a).getLastD h = a.getLastD x := by
      cases a <;> simp [List.getLastD]
    simp only [List.cons_append, risingEdges, List.append_eq, ih, e, Nat.add_assoc]

theorem session_states (fft : (Nat → ℝ × ℝ) → Nat → ℝ × ℝ) (note : Int)
    (blocks : List (List ℝ)) :
    ∀ st : State ℝ,
      ((session fft note st blocks).map Prod.fst).flatten = stream fft st blocks.flatten := by
  induction blocks with
  | nil => intro st; rfl
  | cons b bs ih =>
    intro st
    simp only [session, List.map_cons, List.flatten_cons, ticks_map_fst, ih, process_fst,
      stream_append]

theorem session_events (fft : (Nat → ℝ × ℝ) → Nat → ℝ × ℝ) (note : Int)
    (blocks : List (List ℝ)) :
    ∀ st : State ℝ,
      ((session fft note st blocks).map Prod.snd).flatten
        = List.replicate (risingEdges st.hit ((stream fft st blocks.flatten).map State.hit))
            (noteOn note) := by
  induction blocks with
  | nil => intro st; rfl
  | cons b bs ih =>
    intro st
    simp only [session, List.map_cons, List.flatten_cons, ih, process_fst, process_snd,
      stream_append, List.map_append, risingEdges_append, runState_hit, List.replicate_add]

theorem stream_length (fft : (Nat → ℝ × ℝ) → Nat → ℝ × ℝ) (xs : List ℝ) :
    ∀ st : State ℝ, (stream fft st xs).length = xs.length := by
  induction xs with
  | nil => intro st; rfl
  | cons x xs ih => intro st; simp only [stream, List.length_cons, ih]

theorem tens_stream (tens : List ℝ) :
    ∀ st : State ℝ, (∀ x ∈ tens, |x| = 10) →
      (stream fftwf_execute_dft st tens).map State.hit = List.replicate tens.length true := by
  induction tens with
  | nil => intro st _; rfl
  | cons x xs ih =>
    intro st h
    have hx : |x| = 10 := h x (List.mem_cons_self _ _)
    have hp := power_ge_cur st x
    rw [hx] at hp
    have hh := hit_of_power_gt fftwf_execute_dft st x (by linarith)
    simp only [stream, List.map_cons, List.length_cons, List.replicate_succ, hh,
      ih _ (fun y hy => h y (List.mem_cons_of_mem _ hy))]

theorem zeroWin_of_inv (st : State ℝ) (hist : List ℝ) (h : WindowInv st hist)
    (hz : ∀ d, d < 128 → hist.getD d 0 = 0) : ZeroWin st := by
  obtain ⟨hlt, hslots⟩ := h
  simp only [LAST_WIDTH, FFT_SIZE] at hlt hslots
  intro j hj
  have e : j = (st.last_idx + 128 - (st.last_idx + 128 - j) % 128) % 128 := by omega
  have hd : (st.last_idx + 128 - j) % 128 < 128 := by omega
  rw [e, hslots _ hd, hz _ hd, abs_zero]

theorem decay_stream (m : Nat) :
    ∀ (a : Nat) (st : State ℝ) (hist : List ℝ), WindowInv st hist → TenTail a hist →
      st.hit = true → a ≤ 127 →
      (stream fftwf_execute_dft st (List.replicate m 0)).map State.hit
        = List.replicate (min m (127 - a)) true ++ List.replicate (m - (127 - a)) false ∧
      ((stream fftwf_execute_dft st (List.replicate m 0)).map State.power).drop (127 - a)
        = List.replicate (m - (127 - a)) 0 := by
  induction m with
  | zero => intro a st hist _ _ _ _; simp [stream]
  | succ m ih =>
    intro a st hist hinv ht hs ha
    have hinv1 := windowInv_step fftwf_execute_dft st hist 0 hinv
    rcases Nat.lt_or_ge a 127 with hlt | hge
    · have hp := power_ge_old st 0 hist hinv
      have h126 : |hist.getD 126 0| = 10 := ht.2 126 (by omega) (by omega)
      have hnn := abs_nonneg (hist.getD 0 0)
      rw [h126] at hp
      have hh := hit_of_power_ge fftwf_execute_dft st 0 hs (by norm_num; linarith)
      have ht1 : TenTail (a + 1) (0 :: hist) := by
        refine ⟨?_, ?_⟩
        · intro d hd
          cases d with
          | zero => rfl
          | succ d => exact ht.1 d (by omega)
        · intro d hd1 hd2
          cases d with
          | zero => omega
          | succ d => exact ht.2 d (by omega) (by omega)
      obtain ⟨i1, i2⟩ := ih (a + 1) _ _ hinv1 ht1 hh (by omega)
      have e1 : min (m + 1) (127 - a) = min m (127 - (a + 1)) + 1 := by omega
      have e2 : m + 1 - (127 - a) = m - (127 - (a + 1)) := by omega
      have e3 : 127 - a = (127 - (a + 1)) + 1 := by omega
      refine ⟨?_, ?_⟩
      · simp only [List.replicate_succ, stream, List.map_cons, hh, i1, e1, e2, List.cons_append]
      · rw [e2, ← i2, e3]
        simp only [List.replicate_succ, stream, List.map_cons, List.drop_succ_cons]
    · have ha' : a = 127 := by omega
      subst ha'
      have hz : ZeroWin (nextState fftwf_execute_dft st 0) := by
        refine zeroWin_of_inv _ _ hinv1 ?_
        intro d hd
        cases d with
        | zero => rfl
        | succ d => exact ht.1 d (by omega)
      have hp := zeroWin_power st 0 hz
      have hh := hit_of_power_zero fftwf_execute_dft st 0 hp
      obtain ⟨z1, _⟩ := zero_stream m _ hz
      have zpow : (stream fftwf_execute_dft (nextState fftwf_execute_dft st 0)
          (List.replicate m 0)).map State.power = List.replicate m 0 := by
        have := congrArg (List.map Prod.fst) z1
        simpa [List.map_map, Function.comp_def] using this
      have zhit : (stream fftwf_execute_dft (nextState fftwf_execute_dft st 0)
          (List.replicate m 0)).map State.hit = List.replicate m false := by
        have := congrArg (List.map Prod.snd) z1
        simpa [List.map_map, Function.comp_def] using this
      refine ⟨?_, ?_⟩
      · simp only [List.replicate_succ, stream, List.map_cons, hh, zhit, Nat.sub_self,
          Nat.min_zero, List.replicate_zero, List.nil_append, Nat.sub_zero]
      · simp only [List.replicate_succ, stream, List.map_cons, hp, zpow, Nat.sub_self,
          List.drop_zero, Nat.sub_zero]

theorem risingEdges_skip_false (a : Nat) (l : List Bool) :
    risingEdges false (List.replicate a false ++ l) = risingEdges false l := by
  induction a with
  | zero => rfl
  | succ a ih => simp [List.replicate_succ, risingEdges, ih]

theorem risingEdges_skip_true (b : Nat) (l : List Bool) :
    risingEdges true (List.replicate b true ++ l) = risingEdges true l := by
  induction b with
  | zero => rfl
  | succ b ih => simp [List.replicate_succ, risingEdges, ih]

theorem fallingEdges_skip_false (a : Nat) (l : List Bool) :
    fallingEdges false (List.replicate a false ++ l) = fallingEdges false l := by
  induction a with
  | zero => rfl
  | succ a ih => simp [List.replicate_succ, fallingEdges, ih]

theorem fallingEdges_skip_true (b : Nat) (l : List Bool) :
    fallingEdges true (List.replicate b true ++ l) = fallingEdges true l := by
  induction b with
  | zero => rfl
  | succ b ih => simp [List.replicate_succ, fallingEdges, ih]

theorem fallingEdges_false (c : Nat) : fallingEdges false (List.replicate c false) = 0 := by
  induction c with
  | zero => rfl
  | succ c ih => simp [List.replicate_succ, fallingEdges, ih]

theorem fallingEdges_true_false (c : Nat) :
    fallingEdges true (List.replicate c false) = if 0 < c then 1 else 0 := by
  cases c with
  | zero => rfl
  | succ c => simp [List.replicate_succ, fallingEdges, fallingEdges_false]

theorem edges_pulse (a b c : Nat) :
    risingEdges false
        (List.replicate a false ++ List.replicate (b + 1) true ++ List.replicate c false) = 1 ∧
    fallingEdges false
        (List.replicate a false ++ List.replicate (b + 1) true ++ List.replicate c false)
      = if 0 < c then 1 else 0 := by
  rw [List.append_assoc, risingEdges_skip_false, fallingEdges_skip_false, List.replicate_succ,
    List.cons_append]
  refine ⟨?_, ?_⟩
  · simp [risingEdges, risingEdges_skip_true, risingEdges_false]
  · simp [fallingEdges, fallingEdges_skip_true, fallingEdges_true_false]

theorem pulse_stream (tens : List ℝ) (m : Nat) (hlen : tens.length = 128)
    (htens : ∀ x ∈ tens, |x| = 10) :
    (stream fftwf_execute_dft State.init
        (List.replicate 128 0 ++ tens ++ List.replicate m 0)).map State.hit
      = List.replicate 128 false ++ List.replicate (127 + min m 127 + 1) true
          ++ List.replicate (m - 127) false ∧
    ((stream fftwf_execute_dft State.init
        (List.replicate 128 0 ++ tens ++ List.replicate m 0)).map State.power).drop (256 + 127)
      = List.replicate (m - 127) 0 := by
  have hz := zero_stream 128 State.init (fun _ _ => rfl)
  have hits1 : (stream fftwf_execute_dft State.init (List.replicate 128 0)).map State.hit
      = List.replicate 128 false := by
    have := congrArg (List.map Prod.snd) hz.1
    simpa [List.map_map, Function.comp_def] using this
  have hits2 := tens_stream tens (runState fftwf_execute_dft State.init (List.replicate 128 0))
    htens
  rw [hlen] at hits2
  have hinv1 := windowInv_run fftwf_execute_dft (List.replicate 128 (0 : ℝ)) State.init []
    windowInv_init
  have hinv2 := windowInv_run fftwf_execute_dft tens _ _ hinv1
  have htt : TenTail 0 (tens.reverse ++ ((List.replicate 128 (0 : ℝ)).reverse ++ [])) := by
    refine ⟨fun d hd => absurd hd (Nat.not_lt_zero d), ?_⟩
    intro d _ hd
    have hdl : d < tens.reverse.length := by simpa [hlen] using hd
    rw [List.getD_append _ _ _ _ hdl, List.getD_eq_getElem _ _ hdl]
    exact htens _ (List.mem_reverse.mp (List.getElem_mem hdl))
  have hhit2 : (runState fftwf_execute_dft
      (runState fftwf_execute_dft State.init (List.replicate 128 0)) tens).hit = true := by
    rw [runState_hit, hits2]
    rfl
  obtain ⟨d1, d2⟩ := decay_stream m 0 _ _ hinv2 htt hhit2 (by omega)
  rw [stream_append, stream_append, runState_append]
  simp only [List.map_append]
  refine ⟨?_, ?_⟩
  · rw [hits1, hits2, d1]
    simp only [Nat.sub_zero, List.append_assoc]
    congr 1
    rw [← List.append_assoc, ← List.replicate_add]
    congr 2
    omega
  · have hl : ((stream fftwf_execute_dft State.init (List.replicate 128 0)).map State.power
        ++ (stream fftwf_execute_dft (runState fftwf_execute_dft State.init
            (List.replicate 128 0)) tens).map State.power).length = 256 := by
      simp [stream_length, hlen]
    rw [← hl, List.drop_append]
    simpa using d2

/-- C6: scenario.  From the initial globals, whatever the split into blocks,
128 zero samples followed by 128 samples of magnitude 10 and then `m` zero
samples give: `hit` stays `false` during the zeros, is `true` after every sample
of the second phase and after each of the first 127 trailing zeros, and is
`false` from the 128-th trailing zero on, where the metric is 0; so there is
exactly one `false`-to-`true` step, in the second phase, exactly one note event
(configured pitch, velocity 63) over all the blocks, and, once 128 trailing zeros
have been fed, exactly one `true`-to-`false` step, however many zeros follow. -/
theorem scenario (note : Int) (blocks : List (List ℝ)) (tens : List ℝ) (m : Nat)
    (hlen : tens.length = 128) (htens : ∀ x ∈ tens, |x| = 10)
    (hblocks : blocks.flatten = List.replicate 128 0 ++ tens ++ List.replicate m 0) :
    (((session fftwf_execute_dft note State.init blocks).map Prod.fst).flatten.map State.hit
      = List.replicate 128 false ++ List.replicate 128 true
          ++ List.replicate (min m 127) true ++ List.replicate (m - 127) false) ∧
    ((((session fftwf_execute_dft note State.init blocks).map Prod.fst).flatten.map
        State.power).drop (256 + 127) = List.replicate (m - 127) 0) ∧
    (((session fftwf_execute_dft note State.init blocks).map Prod.snd).flatten
      = [MidiEvent.mk 0 [0x90, note, 63]]) ∧
    (risingEdges false
        (((session fftwf_execute_dft note State.init blocks).map Prod.fst).flatten.map State.hit)
      = 1) ∧
    (fallingEdges false
        (((session fftwf_execute_dft note State.init blocks).map Prod.fst).flatten.map State.hit)
      = if 128 ≤ m then 1 else 0) := by
  obtain ⟨h1, h2⟩ := pulse_stream tens m hlen htens
  rw [← hblocks] at h1 h2
  have hp := edges_pulse 128 (127 + min m 127) (m - 127)
  rw [← h1] at hp
  rw [session_states, session_events]
  refine ⟨?_, h2, ?_, hp.1, ?_⟩
  · have e : List.replicate (127 + min m 127 + 1) true
        = List.replicate 128 true ++ List.replicate (min m 127) true := by
      rw [← List.replicate_add]
      congr 1
      omega
    rw [h1, e]
    simp only [List.append_assoc]
  · have hi : (State.init : State ℝ).hit = false := rfl
    rw [hi, hp.1]
    rfl
  · rw [hp.2]
    by_cases hm : 128 ≤ m
    · have h0 : 0 < m - 127 := by omega
      simp [hm, h0]
    · have h0 : ¬ 0 < m - 127 := by omega
      simp [hm, h0]

theorem zeta_pow_32 : zeta ^ 32 = -Complex.I := by
  unfold zeta
  rw [inv_pow, ← Complex.exp_nat_mul]
  have e : ((32 : ℕ) : ℂ) * (2 * (Real.pi : ℂ) * Complex.I / ((128 : ℕ) : ℂ))
      = ((Real.pi / 2 : ℝ) : ℂ) * Complex.I := by
    push_cast
    ring
  rw [e, Complex.exp_mul_I, ← Complex.ofReal_cos, ← Complex.ofReal_sin, Real.cos_pi_div_two,
    Real.sin_pi_div_two]
  simp

theorem spectrum_single (G : ℕ → ℂ) (h : ∀ j, j < 128 → G j = if j = 127 then 1 else 0)
    (k : ℕ) : spectrum G k = zeta ^ (127 * k) := by
  unfold spectrum
  rw [Finset.sum_eq_single 127]
  · rw [h 127 (by norm_num)]
    simp
  · intro j hj hne
    rw [h j (Finset.mem_range.mp hj)]
    simp [hne]
  · simp

/-- C4 at the failing input: after the block `[1, 0]` from the initial globals
the metric `process` stores is the mean of the absolute values of the real
parts of `fft_out`, and it is strictly smaller than the mean of the moduli of
the 128 coefficients of `fft_out`. -/
theorem power_not_mean_modulus :
    (process fftwf_execute_dft 48 State.init [1, 0]).1.power
      = (∑ k in range 128, |((process fftwf_execute_dft 48 State.init [1, 0]).1.fft_out k).1|)
          / 128 ∧
    (process fftwf_execute_dft 48 State.init [1, 0]).1.power
      < (∑ k in range 128,
          Complex.abs (Complex.mk
            ((process fftwf_execute_dft 48 State.init [1, 0]).1.fft_out k).1
            ((process fftwf_execute_dft 48 State.init [1, 0]).1.fft_out k).2)) / 128 := by
  have hrun : (process fftwf_execute_dft 48 State.init [1, 0]).1
      = nextState fftwf_execute_dft (runState fftwf_execute_dft State.init [1]) 0 := by
    rw [process_fst]
    rfl
  have hpow : (process fftwf_execute_dft 48 State.init [1, 0]).1.power
      = (∑ k in range 128,
          |((process fftwf_execute_dft 48 State.init [1, 0]).1.fft_out k).1|) / 128 := by
    rw [hrun, nextState_power, nextState_fft_out, sumFabs_eq]
    simp [FFT_SIZE]
  refine ⟨hpow, ?_⟩
  rw [hpow]
  have hout : ∀ k, (process fftwf_execute_dft 48 State.init [1, 0]).1.fft_out k
      = ((zeta ^ (127 * k)).re, (zeta ^ (127 * k)).im) := by
    intro k
    rw [hrun, nextState_fft_out, dft_eq_spectrum, spectrum_single]
    intro j hj
    have hf := frame_run fftwf_execute_dft [1, 0] j hj
    have hr : runState fftwf_execute_dft State.init [1, 0]
        = nextState fftwf_execute_dft (runState fftwf_execute_dft State.init [1]) 0 := rfl
    rw [hr] at hf
    rw [hf]
    by_cases h127 : j = 127
    · subst h127
      simp [Complex.ext_iff]
    · have h0 : ([(1 : ℝ), 0].reverse).getD ((128 - j) % 128) 0 = 0 := by
        rcases Nat.eq_zero_or_pos j with rfl | hpos
        · rfl
        · have : 2 ≤ (128 - j) % 128 := by omega
          exact List.getD_eq_default _ _ (by simpa using this)
      rw [h0]
      simp [h127, Complex.ext_iff]
  simp only [hout, Complex.eta]
  refine div_lt_div_of_pos_right ?_ (by norm_num)
  refine Finset.sum_lt_sum (fun k _ => Complex.abs_re_le_abs _) ⟨32, by simp, ?_⟩
  rw [zeta_conj 32, one_mul, zeta_pow_32]
  simp

/-- C3 at the failing input: on the block `[0, 10]` from the initial globals the
only `false`-to-`true` step of `hit` is at loop index 1, and the note event
written for it carries time 0. -/
theorem note_time_zero :
    risingTicks fftwf_execute_dft 48 0 (State.init, []) [0, 10] = [1] ∧
    (process fftwf_execute_dft 48 State.init [0, 10]).2 = [MidiEvent.mk 0 [0x90, 48, 63]] ∧
    (process fftwf_execute_dft 48 State.init [0, 10]).2.map MidiEvent.time = [0] := by
  have hz : ZeroWin (nextState fftwf_execute_dft State.init 0) :=
    zeroWin_step fftwf_execute_dft State.init (fun _ _ => rfl)
  have h0 : (nextState fftwf_execute_dft State.init 0).hit = false :=
    hit_of_power_zero _ _ _ (zeroWin_power State.init 0 hz)
  have h1 : (nextState fftwf_execute_dft (nextState fftwf_execute_dft State.init 0) 10).hit
      = true := by
    refine hit_of_power_gt _ _ _ (lt_of_lt_of_le ?_ (power_ge_cur _ 10))
    norm_num
  have hr : risingTicks fftwf_execute_dft 48 0 (State.init, []) [0, 10] = [1] := by
    simp [risingTicks, tick_fst, h0, h1]
  have hp : (process fftwf_execute_dft 48 State.init [0, 10]).2
      = [MidiEvent.mk 0 [0x90, 48, 63]] := by
    unfold process
    rw [loop_snd, hr]
    rfl
  exact ⟨hr, hp, by rw [hp]; rfl⟩

end Transform

theorem scenario_witness :
    (List.replicate 128 (10 : ℝ)).length = 128 ∧
    (∀ x ∈ List.replicate 128 (10 : ℝ), |x| = 10) ∧
    [List.replicate 128 (0 : ℝ), List.replicate 128 10, List.replicate 200 0].flatten
      = List.replicate 128 0 ++ List.replicate 128 10 ++ List.replicate 200 0 ∧
    ((session fftwf_execute_dft 48 State.init
        [List.replicate 128 (0 : ℝ), List.replicate 128 10, List.replicate 200 0]).map
          Prod.snd).flatten = [MidiEvent.mk 0 [0x90, 48, 63]] :=
  have h1 : (List.replicate 128 (10 : ℝ)).length = 128 := List.length_replicate _ _
  have h2 : ∀ x ∈ List.replicate 128 (10 : ℝ), |x| = 10 := fun x hx => by
    rw [List.eq_of_mem_replicate hx]
    norm_num
  have h3 : [List.replicate 128 (0 : ℝ), List.replicate 128 10, List.replicate 200 0].flatten
      = List.replicate 128 0 ++ List.replicate 128 10 ++ List.replicate 200 0 := by
    simp [List.flatten]
  ⟨h1, h2, h3, (scenario 48 _ _ 200 h1 h2 h3).2.2.1⟩

theorem window_contents_witness :
    0 < min [[(3 : ℚ)], [-4]].flatten.length 128 ∧
    (sessionState (fun x => x) 48 State.init [[(3 : ℚ)], [-4]]).last
        (([[(3 : ℚ)], [-4]].flatten.length - 0) % 128)
      = |[[(3 : ℚ)], [-4]].flatten.getD ([[(3 : ℚ)], [-4]].flatten.length - 0 - 1) 0| :=
  ⟨by decide, (window_contents (fun x => x) 48 [[(3 : ℚ)], [-4]]).2.2.1 0 (by decide)⟩

theorem hysteresis_step_witness :
    (0.9 : ℚ) ≤ (tick (fun _ _ => ((1 : ℚ), (0 : ℚ))) 48 0 (State.init, []) 5).1.power ∧
    (tick (fun _ _ => ((1 : ℚ), (0 : ℚ))) 48 0 (State.init, []) 5).1.power ≤ 2 ∧
    (tick (fun _ _ => ((1 : ℚ), (0 : ℚ))) 48 0 (State.init, []) 5).1.hit
      = (State.init : State ℚ).hit :=
  have hp : (tick (fun _ _ => ((1 : ℚ), (0 : ℚ))) 48 0 (State.init, []) 5).1.power = 1 := by
    rw [tick_fst, nextState_power, sumFabs_eq]
    simp [FFT_SIZE]
  ⟨by rw [hp]; norm_num, by rw [hp]; norm_num,
    (hysteresis_step (fun _ _ => ((1 : ℚ), (0 : ℚ))) 48 0 (State.init, []) 5).2.1
      (by rw [hp]; norm_num) (by rw [hp]; norm_num)⟩

theorem note_bytes_witness :
    noteOn 48 ∈ (process (fun _ _ => ((3 : ℚ), (0 : ℚ))) 48 State.init [1]).2 ∧
    (noteOn 48).data = [0x90, 48, 63] :=
  have hp : (nextState (fun _ _ => ((3 : ℚ), (0 : ℚ))) State.init 1).power = 3 := by
    rw [nextState_power, sumFabs_eq]
    simp [FFT_SIZE]
  have hm : noteOn 48 ∈ (process (fun _ _ => ((3 : ℚ), (0 : ℚ))) 48 State.init [1]).2 := by
    rw [process_snd]
    simp only [stream, List.map_cons, List.map_nil, risingEdges, nextState_hit]
    rw [hp]
    norm_num [State.init]
  ⟨hm, (note_bytes (fun _ _ => ((3 : ℚ), (0 : ℚ))) 48 State.init [1] (noteOn 48) hm).2.1⟩

end Drumbox
